import Mathlib

/-!
Verification of the semantic retrieval subsystem of the Customer-Support-AI
repository: vocabulary construction, bag-of-terms embeddings, the flat
L2 nearest-neighbor index, and the query-time retrieval service
(`src/utils/vector_store.py` and `src/agents/retrieval_agent.py`).

Modelling conventions:
* Python strings are Lean `String`s; `str.lower()` is `lowerStr` (ASCII case
  mapping, which covers the corpus and queries at issue), `str.split()` is
  `tokenize` (split on whitespace runs, dropping empties).
* Term-frequency vectors are `List ℕ` (the raw counts accumulated by the
  loop in `_create_simple_embeddings` before normalization).
* Floating-point arithmetic is modelled exactly: the squared L2 distance
  computed by `faiss.IndexFlatL2` between the L2-normalized embeddings of
  raw count vectors `x` and `y` is the real number
  `2 - 2·(x·y)/√(‖x‖²·‖y‖²)` when both are non-zero, `1` when exactly one
  is zero, and `0` when both are zero.  These exact values are represented
  symbolically by `DistSq`, and all comparisons the code performs on
  distances (sorting, thresholding) are carried out by the exact boolean
  comparator `dleB`, proved below to agree with the real-number order.
* `faiss.IndexFlatL2.search` is external library code; it is modelled as a
  stable sort by distance (ties keep the original row order, the behavior
  the spec documents in §4.3) followed by padding missing slots with the
  sentinel label `-1` and distance `FLT_MAX` when `k` exceeds the number
  of indexed rows.
-/

namespace CustomerSupport

/-- Dimension cap from `config.py`: `VECTOR_DIMENSION = 384`. -/
def VECTOR_DIMENSION : ℕ := 384

/-- Relevance threshold from `config.py`: `SIMILARITY_THRESHOLD = 0.7`. -/
def SIMILARITY_THRESHOLD : ℚ := mkRat 7 10

/-- ASCII model of Python `str.lower()`. -/
def lowerStr (s : String) : String := String.mk (s.data.map Char.toLower)

/-- Whitespace characters recognized by Python `str.split()` (the subset
that can occur in the corpus and queries considered here). -/
def isSpaceChar (c : Char) : Bool := c = ' ' || c = '\t' || c = '\n' || c = '\r'

/-- Helper for `tokenize`: accumulate the current word (reversed) while
scanning the character list, emitting a word at each whitespace run. -/
def splitWordsAux : List Char → List Char → List String
  | [], acc => if acc.isEmpty then [] else [String.mk acc.reverse]
  | c :: cs, acc =>
    if isSpaceChar c then
      if acc.isEmpty then splitWordsAux cs []
      else String.mk acc.reverse :: splitWordsAux cs []
    else splitWordsAux cs (c :: acc)

/-- Model of `text.lower().split()`: whitespace tokenization of the
lowercased text, dropping empty tokens, as used both for corpus documents
and for queries in `vector_store.py`. -/
def tokenize (s : String) : List String := splitWordsAux (lowerStr s).data []

/-- Lexicographic comparison of character lists, the order Python uses to
sort strings (code-point lexicographic). -/
def charListLeB : List Char → List Char → Bool
  | [], _ => true
  | _ :: _, [] => false
  | a :: as, b :: bs => if a < b then true else if b < a then false else charListLeB as bs

/-- Boolean lexicographic string comparison (Python string `<=`). -/
def strLeB (a b : String) : Bool := charListLeB a.data b.data

/-- The sort order used by `sorted(...)` on strings, as a relation. -/
def strLe (a b : String) : Prop := strLeB a b = true

instance : DecidableRel strLe := fun a b => instDecidableEqBool (strLeB a b) true

/-- Model of `vocab = sorted(list(set(words over all texts)))`
(`_create_simple_embeddings`, lines 46-53): the deduplicated token list of
all documents, sorted lexicographically. -/
def buildVocab (texts : List String) : List String :=
  List.insertionSort strLe ((texts.map tokenize).flatten.dedup)

/-- Model of the dict `word_to_idx = {word: i for i, word in enumerate(vocab)}`:
the first index of `w` in `vocab` (the only index, since `vocab` is
deduplicated), or `none` for out-of-vocabulary words. -/
def wordToIdx : List String → String → Option ℕ
  | [], _ => none
  | v :: vs, w => if v = w then some 0 else (wordToIdx vs w).map (· + 1)

/-- Width of the embedding matrix: `min(len(self.vocab), VECTOR_DIMENSION)`
(`_create_simple_embeddings`, line 57). -/
def embDim (vocab : List String) : ℕ := min vocab.length VECTOR_DIMENSION

/-- Model of `embeddings[i, idx] += 1`. -/
def bump (v : List ℕ) (i : ℕ) : List ℕ := v.set i (v.getD i 0 + 1)

/-- One iteration of the word loop in `_create_simple_embeddings`
(lines 59-65): `if word in self.word_to_idx: idx = ...;
if idx < VECTOR_DIMENSION: embeddings[i, idx] += 1`. -/
def embedStep (vocab : List String) (v : List ℕ) (w : String) : List ℕ :=
  match wordToIdx vocab w with
  | some idx => if idx < VECTOR_DIMENSION then bump v idx else v
  | none => v

/-- Raw (pre-normalization) term-frequency vector of one document, as
accumulated by `_create_simple_embeddings` for a frozen vocabulary. -/
def rawEmbed (vocab : List String) (text : String) : List ℕ :=
  (tokenize text).foldl (embedStep vocab) (List.replicate (embDim vocab) 0)

/-- Sum of squares of a raw count vector (the squared Euclidean norm
before normalization). -/
def sumSq (v : List ℕ) : ℕ := (v.map (fun c => c * c)).sum

/-- Dot product of two raw count vectors. -/
def dot : List ℕ → List ℕ → ℕ
  | [], _ => 0
  | _, [] => 0
  | a :: as, b :: bs => a * b + dot as bs

/-- Exact symbolic value of the squared L2 distance reported by the flat
index between the L2-normalized embeddings of two raw count vectors:
`rat q` denotes the rational number `q`; `irr a n` (built only with
`a ≠ 0`, `n ≠ 0`) denotes the real number `2 - 2·a/√n`. -/
inductive DistSq where
  | rat (q : ℚ)
  | irr (a : ℕ) (n : ℕ)
deriving DecidableEq, Repr

/-- Exact order on `DistSq` values (`d₁ ≤ d₂` on the denoted reals),
computed by cross-multiplying away the square roots and the rational
denominator: for `a, b > 0` and `n, m > 0`,
`2 - 2a/√n ≤ 2 - 2b/√m ↔ b²·n ≤ a²·m`, and with `c := 2·p.den - p.num`
(so `2 - p = c / p.den`), `p ≤ 2 - 2a/√n ↔ c ≥ 0 ∧ 4a²·p.den² ≤ c²·n`.
All arithmetic is over `ℤ` so that the comparator evaluates by `decide`. -/
def dleB : DistSq → DistSq → Bool
  | .rat p, .rat q => decide (p ≤ q)
  | .rat p, .irr a n =>
    let c : ℤ := 2 * (p.den : ℤ) - p.num
    if c < 0 then false
    else decide (4 * (a : ℤ) ^ 2 * (p.den : ℤ) ^ 2 ≤ c ^ 2 * (n : ℤ))
  | .irr a n, .rat p =>
    let c : ℤ := 2 * (p.den : ℤ) - p.num
    if c ≤ 0 then true
    else decide (c ^ 2 * (n : ℤ) ≤ 4 * (a : ℤ) ^ 2 * (p.den : ℤ) ^ 2)
  | .irr a n, .irr b m => decide ((b : ℤ) ^ 2 * (n : ℤ) ≤ (a : ℤ) ^ 2 * (m : ℤ))

/-- Squared L2 distance between the L2-normalized embeddings of raw count
vectors `x` and `y`, exactly: `0` if both are zero vectors, `1` if exactly
one is zero (the code leaves a zero-norm vector unnormalized, so the
distance to a unit vector is `‖u‖² = 1`), `2` if they are non-zero but
orthogonal, and otherwise the irrational `2 - 2·(x·y)/√(‖x‖²‖y‖²)`. -/
def distSq (x y : List ℕ) : DistSq :=
  if sumSq x = 0 ∧ sumSq y = 0 then .rat 0
  else if sumSq x = 0 ∨ sumSq y = 0 then .rat 1
  else if dot x y = 0 then .rat 2
  else .irr (dot x y) (sumSq x * sumSq y)

/-- Largest `float32`, the distance sentinel FAISS places in padding slots
when `k` exceeds the number of indexed rows. -/
def FLT_MAX : ℚ := 340282346638528859811704183484516925440

/-- One FAQ record (`{question, answer, category}` object of the corpus). -/
structure FAQ where
  question : String
  answer : String
  category : String
deriving DecidableEq, Repr

/-- One entry of the list built by `VectorStore.search`
(`{'rank': i+1, 'score': float(score), 'faq': self.faq_data[idx]}`). -/
structure SearchResult where
  rank : ℕ
  score : DistSq
  faq : FAQ
deriving DecidableEq, Repr

/-- State of a built `VectorStore`: the corpus, the frozen vocabulary and
the raw count matrix whose normalized rows populate the FAISS index. -/
structure StoreState where
  faq_data : List FAQ
  vocab : List String
  embeddings : List (List ℕ)
deriving DecidableEq, Repr

/-- Combined document text of a record
(`f"{faq['question']} {faq['answer']}".lower()`, `create_embeddings`). -/
def combinedText (f : FAQ) : String := lowerStr (f.question ++ " " ++ f.answer)

/-- Model of `create_embeddings` (lines 28-42): one raw count row per
corpus record, over the vocabulary frozen from the corpus texts. -/
def createEmbeddings (corpus : List FAQ) : List (List ℕ) :=
  let texts := corpus.map combinedText
  let vocab := buildVocab texts
  texts.map (rawEmbed vocab)

/-- Model of building the store: `load_faq_data` + `create_embeddings` +
`build_index` on a fresh instance. -/
def buildStore (corpus : List FAQ) : StoreState :=
  { faq_data := corpus
    vocab := buildVocab (corpus.map combinedText)
    embeddings := createEmbeddings corpus }

/-- Model of the FAISS flat index built by `build_index` (lines 75-89):
it simply holds the embedding rows. -/
structure FaissIndex where
  vectors : List (List ℕ)
deriving DecidableEq, Repr

/-- Model of `build_index`: `faiss.IndexFlatL2(dim)` filled with
`index.add(embeddings)`. -/
def buildIndex (embs : List (List ℕ)) : FaissIndex := { vectors := embs }

/-- `index.ntotal`: number of vectors held by the index. -/
def FaissIndex.ntotal (ix : FaissIndex) : ℕ := ix.vectors.length

/-- Python list indexing `l[i]` for a possibly negative `i`
(`l[-1]` is the last element); `none` models an `IndexError`. -/
def pyGet {α : Type} (l : List α) (i : ℤ) : Option α :=
  let j : ℤ := if i < 0 then (l.length : ℤ) + i else i
  if 0 ≤ j then l[j.toNat]? else none

/-- Model of `faiss.IndexFlatL2.search(query, k)` on the rows of the
index: every row is scored by exact squared L2 distance to the query,
rows are sorted ascending by distance with ties keeping the original row
order (stable sort), the first `k` are returned, and missing slots are
padded with the sentinel pair `(FLT_MAX, -1)` when `k` exceeds the number
of rows. -/
def indexSearch (embs : List (List ℕ)) (q : List ℕ) (k : ℕ) : List (DistSq × ℤ) :=
  let scored := embs.enum.map (fun p => (distSq q p.2, (p.1 : ℤ)))
  let sorted := List.insertionSort (fun x y => dleB x.1 y.1 = true) scored
  let top := sorted.take k
  top ++ List.replicate (k - top.length) (DistSq.rat FLT_MAX, (-1 : ℤ))

/-- Model of the body of `VectorStore.search` (lines 141-165) when no
exception occurs: encode the lowercased query with the frozen vocabulary,
run the index search, and keep the pairs passing the `idx < len(faq_data)`
guard, resolving `self.faq_data[idx]` with Python indexing. -/
def vsSearchOk (st : StoreState) (query : String) (k : ℕ) : List SearchResult :=
  let qemb := rawEmbed st.vocab query
  let pairs := indexSearch st.embeddings qemb k
  pairs.enum.filterMap (fun p =>
    if p.2.2 < (st.faq_data.length : ℤ) then
      (pyGet st.faq_data p.2.2).map
        (fun f => { rank := p.1 + 1, score := p.2.1, faq := f })
    else none)

/-- Model of `VectorStore.search` including its `try/except` (lines
166-168): `exc = some msg` represents an exception raised during query
encoding or index search, which the `except` branch converts to `[]`. -/
def vsSearch (st : StoreState) (query : String) (k : ℕ) (exc : Option String) :
    List SearchResult :=
  match exc with
  | some _ => []
  | none => vsSearchOk st query k

/-- One entry of `relevant_faqs` in `retrieve_relevant_faqs`. -/
structure RetrievedFAQ where
  question : String
  answer : String
  category : String
  similarity_score : DistSq
  rank : ℕ
deriving DecidableEq, Repr

/-- The dictionary returned by `retrieve_relevant_faqs` (processing time
omitted: wall-clock time carries no information verified here). -/
structure RetrievalResult where
  query : String
  category_filter : Option String
  retrieved_faqs : List RetrievedFAQ
  total_results : ℕ
  relevant_results : ℕ
  error : Option String
deriving DecidableEq, Repr

/-- Model of the category-filter block of `retrieve_relevant_faqs`
(lines 31-40): `if category and category != 'general_inquiry'`, keep the
candidates whose record category equals `category`, unless that filter
empties the list, in which case the unfiltered results are kept.  A
`none` or empty-string category is falsy in Python and disables the
filter. -/
def applyCategoryFilter (category : Option String) (results : List SearchResult) :
    List SearchResult :=
  match category with
  | none => results
  | some c =>
    if c ≠ "" ∧ c ≠ "general_inquiry" then
      let filtered := results.filter (fun r => r.faq.category = c)
      if filtered.isEmpty then results else filtered
    else results

/-- Model of `RetrievalAgent.retrieve_relevant_faqs` (lines 23-76): search
(with the vector store's internal exception handling represented by
`exc`), category-filter, then keep candidates whose raw score passes
`result['score'] >= SIMILARITY_THRESHOLD` (threshold `T`).  The outer
`try/except` of the method never fires in this model because everything
after the `search` call is total, so `error` is always `None`. -/
def retrieveRelevantFaqs (st : StoreState) (query : String)
    (category : Option String) (k : ℕ) (T : ℚ) (exc : Option String) :
    RetrievalResult :=
  let search_results := applyCategoryFilter category (vsSearch st query k exc)
  let relevant := search_results.filter (fun r => dleB (DistSq.rat T) r.score)
  { query := query
    category_filter := category
    retrieved_faqs := relevant.map (fun r =>
      { question := r.faq.question
        answer := r.faq.answer
        category := r.faq.category
        similarity_score := r.score
        rank := r.rank })
    total_results := search_results.length
    relevant_results := relevant.length
    error := none }

/-- Boolean test that every token of a query is out-of-vocabulary or maps
to an index at or above the dimension cap, so that the word loop of
`_create_simple_embeddings` never increments a coordinate. -/
def oovQuery (vocab : List String) (q : String) : Bool :=
  (tokenize q).all (fun w =>
    match wordToIdx vocab w with
    | none => true
    | some i => decide (VECTOR_DIMENSION ≤ i))

/-! Real-number semantics of the float operations: `np.linalg.norm` and the
normalization loop of `_create_simple_embeddings` (lines 67-73), modelled
in exact real arithmetic. -/

/-- A raw count row as a real vector. -/
noncomputable def toRealVec (v : List ℕ) : List ℝ := v.map (fun c : ℕ => (c : ℝ))

/-- Sum of squares of a real vector. -/
noncomputable def sumSqR (v : List ℝ) : ℝ := (v.map (fun x => x ^ 2)).sum

/-- Euclidean norm (`np.linalg.norm`). -/
noncomputable def euclNorm (v : List ℝ) : ℝ := Real.sqrt (sumSqR v)

/-- The normalization step applied to each embedding row:
`if norm > 0: embeddings[i] = embeddings[i] / norm`, else the row is left
unchanged. -/
noncomputable def normalizeV (v : List ℝ) : List ℝ :=
  if euclNorm v > 0 then v.map (fun x => x / euclNorm v) else v

/-- The embedding row actually stored for a raw count row: its
L2-normalization (or the row itself when its norm is zero). -/
noncomputable def normalizeRow (v : List ℕ) : List ℝ := normalizeV (toRealVec v)

/-- Dot product of real vectors. -/
noncomputable def dotR (x y : List ℝ) : ℝ := (x.zipWith (fun a b => a * b) y).sum

/-- Squared Euclidean distance between real vectors, the quantity FAISS's
`IndexFlatL2` reports as the score. -/
noncomputable def sqDistR (x y : List ℝ) : ℝ :=
  (x.zipWith (fun a b => (a - b) ^ 2) y).sum

/-- Real value denoted by a `DistSq`. -/
noncomputable def DistSq.val : DistSq → ℝ
  | .rat q => (q : ℝ)
  | .irr a n => 2 - 2 * (a : ℝ) / Real.sqrt (n : ℝ)

/-- Well-formedness of the `DistSq` values produced by `distSq`: the
`irr` constructor only carries a positive dot product and a positive
radicand. -/
def DistSq.WF : DistSq → Prop
  | .rat _ => True
  | .irr a n => 0 < a ∧ 0 < n

end CustomerSupport

namespace CustomerSupport

/-! Concrete fixtures used by the counterexamples and witnesses. -/

/-- Refund record of the spec's end-to-end test corpus. -/
def rec0 : FAQ :=
  { question := "How do I get a refund?"
    answer := "Contact support within 30 days."
    category := "refund" }

/-- Password record of the spec's end-to-end test corpus. -/
def rec1 : FAQ :=
  { question := "How do I reset my password?"
    answer := "Use the forgot password link."
    category := "technical_issue" }

/-- Store built from the spec's two-record end-to-end corpus. -/
def st4 : StoreState := buildStore [rec0, rec1]

/-- Query of the spec's end-to-end test. -/
def query4 : String := "I want a refund for my order"

/-- Two-record corpus with disjoint token sets. -/
def recA : FAQ := { question := "alpha", answer := "beta", category := "cat1" }

/-- Second record of the disjoint corpus. -/
def recB : FAQ := { question := "gamma", answer := "delta", category := "cat2" }

/-- Store built from the disjoint two-record corpus. -/
def stAB : StoreState := buildStore [recA, recB]

/-- Query matching only `recA`'s tokens. -/
def queryAlpha : String := "alpha"

/-- Category label with no match in the fixture corpus. -/
def catNope : String := "nope"

/-- Exception message fixture. -/
def boomMsg : String := "boom"

/-- Query fixture with only out-of-vocabulary tokens. -/
def queryZZZ : String := "zzz qqq"

/-- Text fixture whose tokens are out of sorted order. -/
def textBA : String := "b a"

end CustomerSupport

namespace CustomerSupport

/-! Helper lemmas. -/

theorem sumSq_nil : sumSq [] = 0 := rfl

theorem sumSq_cons (c : ℕ) (v : List ℕ) : sumSq (c :: v) = c * c + sumSq v := rfl

theorem sumSq_eq_zero_iff (v : List ℕ) : sumSq v = 0 ↔ ∀ c ∈ v, c = 0 := by
  induction v with
  | nil => simp [sumSq]
  | cons c v ih =>
    have h2 : sumSq (c :: v) = c * c + sumSq v := rfl
    rw [h2, Nat.add_eq_zero]
    simp only [List.mem_cons, mul_self_eq_zero, ih]
    constructor
    · rintro ⟨rfl, h⟩ x hx
      rcases hx with rfl | hx
      · rfl
      · exact h x hx
    · intro h
      exact ⟨h c (Or.inl rfl), fun x hx => h x (Or.inr hx)⟩

theorem sumSqR_toRealVec (v : List ℕ) : sumSqR (toRealVec v) = (sumSq v : ℝ) := by
  induction v with
  | nil => simp [sumSqR, toRealVec, sumSq]
  | cons c v ih =>
    have h1 : toRealVec (c :: v) = (c : ℝ) :: toRealVec v := rfl
    have h2 : sumSq (c :: v) = c * c + sumSq v := rfl
    have h3 : sumSqR ((c : ℝ) :: toRealVec v) = (c : ℝ) ^ 2 + sumSqR (toRealVec v) := rfl
    rw [h1, h2, h3, ih]
    push_cast
    ring

theorem sumSqR_map_div (l : List ℝ) (s : ℝ) :
    sumSqR (l.map (fun x => x / s)) = sumSqR l / s ^ 2 := by
  induction l with
  | nil => simp [sumSqR]
  | cons x l ih =>
    have h1 : (x :: l).map (fun x => x / s) = (x / s) :: l.map (fun x => x / s) := rfl
    have h2 : ∀ (y : ℝ) (m : List ℝ), sumSqR (y :: m) = y ^ 2 + sumSqR m := fun y m => rfl
    rw [h1, h2, h2, ih, div_pow, div_add_div_same]

theorem euclNorm_normalizeRow (v : List ℕ) (h : sumSq v ≠ 0) :
    euclNorm (normalizeRow v) = 1 := by
  have hS : (0 : ℝ) < (sumSq v : ℝ) := by
    exact_mod_cast Nat.pos_of_ne_zero h
  have hnorm : euclNorm (toRealVec v) = Real.sqrt (sumSq v : ℝ) := by
    rw [euclNorm, sumSqR_toRealVec]
  have hs : 0 < euclNorm (toRealVec v) := by
    rw [hnorm]
    exact Real.sqrt_pos.mpr hS
  have hmain : normalizeRow v = (toRealVec v).map (fun x => x / euclNorm (toRealVec v)) := by
    rw [normalizeRow, normalizeV, if_pos hs]
  rw [hmain]
  have : euclNorm ((toRealVec v).map (fun x => x / euclNorm (toRealVec v))) =
      Real.sqrt (sumSqR (toRealVec v) / euclNorm (toRealVec v) ^ 2) := by
    rw [euclNorm, sumSqR_map_div]
  rw [this, hnorm, sumSqR_toRealVec, Real.sq_sqrt hS.le, div_self hS.ne', Real.sqrt_one]

theorem normalizeRow_of_zero (v : List ℕ) (h : sumSq v = 0) :
    normalizeRow v = toRealVec v := by
  have hnorm : euclNorm (toRealVec v) = 0 := by
    rw [euclNorm, sumSqR_toRealVec, h]
    simp [Real.sqrt_zero]
  rw [normalizeRow, normalizeV, if_neg]
  rw [hnorm]
  exact lt_irrefl 0

end CustomerSupport

namespace CustomerSupport

theorem rat_num_eq_mul_den (p : ℚ) : (p.num : ℚ) = p * (p.den : ℚ) := by
  have hd : ((p.den : ℚ)) ≠ 0 := by
    exact_mod_cast p.den_nz
  have h := Rat.num_div_den p
  rw [div_eq_iff hd] at h
  exact h

theorem two_sub_scaled (p : ℚ) :
    ((2 * (p.den : ℤ) - p.num : ℤ) : ℚ) = (2 - p) * (p.den : ℚ) := by
  push_cast
  rw [rat_num_eq_mul_den]
  ring

theorem den_posQ (p : ℚ) : (0 : ℚ) < (p.den : ℚ) := by
  exact_mod_cast Nat.pos_of_ne_zero p.den_nz

theorem rat_le_irr_iff (p : ℚ) (a n : ℕ) :
    dleB (.rat p) (.irr a n) = true ↔
      0 ≤ 2 - p ∧ 4 * (a : ℚ) ^ 2 ≤ (2 - p) ^ 2 * (n : ℚ) := by
  by_cases hc : (2 * (p.den : ℤ) - p.num) < 0
  · have h2p : 2 - p < 0 := by
      have hlt : ((2 * (p.den : ℤ) - p.num : ℤ) : ℚ) < 0 := by exact_mod_cast hc
      rw [two_sub_scaled] at hlt
      nlinarith [den_posQ p]
    simp only [dleB, if_pos hc]
    constructor
    · intro h
      exact absurd h (by simp)
    · rintro ⟨h0, -⟩
      linarith
  · push_neg at hc
    have h2p : 0 ≤ 2 - p := by
      have hle : (0 : ℚ) ≤ ((2 * (p.den : ℤ) - p.num : ℤ) : ℚ) := by exact_mod_cast hc
      rw [two_sub_scaled] at hle
      nlinarith [den_posQ p]
    simp only [dleB, if_neg (not_lt.mpr hc), decide_eq_true_eq]
    constructor
    · intro h
      refine ⟨h2p, ?_⟩
      have hQ : 4 * (a : ℚ) ^ 2 * (p.den : ℚ) ^ 2 ≤
          ((2 * (p.den : ℤ) - p.num : ℤ) : ℚ) ^ 2 * (n : ℚ) := by
        exact_mod_cast h
      rw [two_sub_scaled, mul_pow] at hQ
      have hd2 : (0 : ℚ) < (p.den : ℚ) ^ 2 := by positivity
      nlinarith [hQ]
    · rintro ⟨-, h4⟩
      have hd2 : (0 : ℚ) < (p.den : ℚ) ^ 2 := by positivity
      have hQ : 4 * (a : ℚ) ^ 2 * (p.den : ℚ) ^ 2 ≤
          ((2 * (p.den : ℤ) - p.num : ℤ) : ℚ) ^ 2 * (n : ℚ) := by
        rw [two_sub_scaled, mul_pow]
        nlinarith [h4]
      exact_mod_cast hQ

theorem dleB_rat_mono {T1 T2 : ℚ} (h : T1 ≤ T2) (s : DistSq)
    (hs : dleB (.rat T2) s = true) : dleB (.rat T1) s = true := by
  cases s with
  | rat q =>
    simp only [dleB, decide_eq_true_eq] at *
    linarith
  | irr a n =>
    rw [rat_le_irr_iff] at *
    obtain ⟨h0, h4⟩ := hs
    have h1 : (0 : ℚ) ≤ 2 - T1 := by linarith
    refine ⟨h1, ?_⟩
    have hnn : (0 : ℚ) ≤ (n : ℚ) := by positivity
    have hsq : (2 - T2) ^ 2 ≤ (2 - T1) ^ 2 := by nlinarith
    nlinarith [mul_le_mul_of_nonneg_right hsq hnn]

theorem length_filter_mono {α : Type} (l : List α) (p q : α → Bool)
    (h : ∀ x, p x = true → q x = true) :
    (l.filter p).length ≤ (l.filter q).length := by
  induction l with
  | nil => simp
  | cons x l ih =>
    by_cases hp : p x = true
    · rw [List.filter_cons_of_pos hp, List.filter_cons_of_pos (h x hp)]
      simpa using ih
    · rw [List.filter_cons_of_neg (by simpa using hp), List.filter_cons]
      split
      · exact Nat.le_succ_of_le ih
      · exact ih

theorem relevant_results_eq (st : StoreState) (q : String) (cat : Option String)
    (k : ℕ) (T : ℚ) (exc : Option String) :
    (retrieveRelevantFaqs st q cat k T exc).relevant_results =
      ((applyCategoryFilter cat (vsSearch st q k exc)).filter
        (fun r => dleB (DistSq.rat T) r.score)).length := rfl

theorem mem_applyCategoryFilter {cat : Option String} {l : List SearchResult}
    {x : SearchResult} (hx : x ∈ applyCategoryFilter cat l) : x ∈ l := by
  cases cat with
  | none => exact hx
  | some c =>
    rw [applyCategoryFilter] at hx
    split at hx
    · dsimp only at hx
      split at hx
      · exact hx
      · exact List.mem_of_mem_filter hx
    · exact hx

theorem applyCategoryFilter_nil (cat : Option String) :
    applyCategoryFilter cat [] = [] := by
  cases cat with
  | none => rfl
  | some c =>
    rw [applyCategoryFilter]
    split
    · rfl
    · rfl

end CustomerSupport

namespace CustomerSupport

/-! Semantic soundness of the exact distance representation: `distSq`
denotes the true squared L2 distance between normalized rows, and `dleB`
agrees with the real-number order on the denoted values. -/

theorem sumSqR_nonneg (v : List ℝ) : 0 ≤ sumSqR v := by
  induction v with
  | nil => simp [sumSqR]
  | cons x l ih =>
    have h : sumSqR (x :: l) = x ^ 2 + sumSqR l := rfl
    rw [h]
    positivity

theorem dotR_nil_right (x : List ℝ) : dotR x [] = 0 := by
  cases x <;> rfl

theorem dotR_cons (a b : ℝ) (x y : List ℝ) :
    dotR (a :: x) (b :: y) = a * b + dotR x y := rfl

theorem dotR_toRealVec (x y : List ℕ) :
    dotR (toRealVec x) (toRealVec y) = (dot x y : ℝ) := by
  induction x generalizing y with
  | nil => cases y <;> simp [dotR, toRealVec, dot]
  | cons a as ih =>
    cases y with
    | nil => simp [dotR, toRealVec, dot, dotR_nil_right]
    | cons b bs =>
      have h1 : toRealVec (a :: as) = (a : ℝ) :: toRealVec as := rfl
      have h2 : toRealVec (b :: bs) = (b : ℝ) :: toRealVec bs := rfl
      have h3 : dot (a :: as) (b :: bs) = a * b + dot as bs := rfl
      rw [h1, h2, dotR_cons, h3, ih]
      push_cast
      ring

theorem sqDist_expand : ∀ (x y : List ℝ), x.length = y.length →
    sqDistR x y = sumSqR x - 2 * dotR x y + sumSqR y
  | [], [], _ => by simp [sqDistR, sumSqR, dotR]
  | [], _ :: _, h => by simp at h
  | _ :: _, [], h => by simp at h
  | a :: x, b :: y, h => by
    have hlen : x.length = y.length := by simpa using h
    have h1 : sqDistR (a :: x) (b :: y) = (a - b) ^ 2 + sqDistR x y := rfl
    have h2 : sumSqR (a :: x) = a ^ 2 + sumSqR x := rfl
    have h3 : sumSqR (b :: y) = b ^ 2 + sumSqR y := rfl
    rw [h1, h2, h3, dotR_cons, sqDist_expand x y hlen]
    ring

theorem dotR_map_div (x y : List ℝ) (s t : ℝ) :
    dotR (x.map (fun c => c / s)) (y.map (fun c => c / t)) = dotR x y / (s * t) := by
  induction x generalizing y with
  | nil => simp [dotR]
  | cons a as ih =>
    cases y with
    | nil => simp [dotR_nil_right]
    | cons b bs =>
      rw [List.map_cons, List.map_cons, dotR_cons, dotR_cons, ih]
      by_cases hs : s = 0
      · subst hs
        simp
      · by_cases ht : t = 0
        · subst ht
          simp
        · field_simp

theorem toRealVec_zero (v : List ℕ) (h : ∀ c ∈ v, c = 0) :
    ∀ c ∈ toRealVec v, c = 0 := by
  intro c hc
  rw [toRealVec] at hc
  obtain ⟨n, hn, heq⟩ := List.mem_map.mp hc
  rw [← heq, h n hn]
  norm_num

theorem dotR_zero_left (x y : List ℝ) (h : ∀ c ∈ x, c = 0) : dotR x y = 0 := by
  induction x generalizing y with
  | nil => simp [dotR]
  | cons a as ih =>
    cases y with
    | nil => exact dotR_nil_right _
    | cons b bs =>
      rw [dotR_cons, h a (List.mem_cons_self a as),
        ih bs (fun c hc => h c (List.mem_cons_of_mem a hc))]
      ring

theorem sumSqR_zero (x : List ℝ) (h : ∀ c ∈ x, c = 0) : sumSqR x = 0 := by
  induction x with
  | nil => rfl
  | cons a as ih =>
    have h1 : sumSqR (a :: as) = a ^ 2 + sumSqR as := rfl
    rw [h1, h a (List.mem_cons_self a as),
      ih (fun c hc => h c (List.mem_cons_of_mem a hc))]
    ring

theorem length_toRealVec (v : List ℕ) : (toRealVec v).length = v.length := by
  rw [toRealVec, List.length_map]

theorem length_normalizeRow (v : List ℕ) : (normalizeRow v).length = v.length := by
  rw [normalizeRow, normalizeV]
  split
  · rw [List.length_map, length_toRealVec]
  · exact length_toRealVec v

end CustomerSupport

namespace CustomerSupport

theorem dotR_zero_right (x y : List ℝ) (h : ∀ c ∈ y, c = 0) : dotR x y = 0 := by
  induction x generalizing y with
  | nil => simp [dotR]
  | cons a as ih =>
    cases y with
    | nil => exact dotR_nil_right _
    | cons b bs =>
      rw [dotR_cons, h b (List.mem_cons_self b bs),
        ih bs (fun c hc => h c (List.mem_cons_of_mem b hc))]
      ring

theorem sumSqR_normalizeRow_one (v : List ℕ) (h : sumSq v ≠ 0) :
    sumSqR (normalizeRow v) = 1 := by
  have h1 := euclNorm_normalizeRow v h
  rw [euclNorm, Real.sqrt_eq_one] at h1
  exact h1

theorem normalizeRow_nonzero_eq (v : List ℕ) (h : sumSq v ≠ 0) :
    normalizeRow v = (toRealVec v).map
      (fun c => c / Real.sqrt (sumSq v : ℝ)) := by
  have hS : (0 : ℝ) < (sumSq v : ℝ) := by exact_mod_cast Nat.pos_of_ne_zero h
  have hnorm : euclNorm (toRealVec v) = Real.sqrt (sumSq v : ℝ) := by
    rw [euclNorm, sumSqR_toRealVec]
  have hs : 0 < euclNorm (toRealVec v) := by
    rw [hnorm]
    exact Real.sqrt_pos.mpr hS
  rw [normalizeRow, normalizeV, if_pos hs, hnorm]

/-- Soundness of the symbolic distance: for same-length raw count rows,
the exact squared L2 distance between their stored (normalized) rows is
the real number denoted by `distSq`. -/
theorem distSq_val (x y : List ℕ) (h : x.length = y.length) :
    sqDistR (normalizeRow x) (normalizeRow y) = (distSq x y).val := by
  have hlen : (normalizeRow x).length = (normalizeRow y).length := by
    rw [length_normalizeRow, length_normalizeRow, h]
  rw [sqDist_expand _ _ hlen]
  by_cases hx : sumSq x = 0 <;> by_cases hy : sumSq y = 0
  · have hxz := toRealVec_zero x ((sumSq_eq_zero_iff x).mp hx)
    have hyz := toRealVec_zero y ((sumSq_eq_zero_iff y).mp hy)
    rw [normalizeRow_of_zero x hx, normalizeRow_of_zero y hy]
    rw [distSq, if_pos ⟨hx, hy⟩, DistSq.val]
    rw [sumSqR_zero _ hxz, sumSqR_zero _ hyz, dotR_zero_left _ _ hxz]
    norm_num
  · have hxz := toRealVec_zero x ((sumSq_eq_zero_iff x).mp hx)
    rw [normalizeRow_of_zero x hx]
    rw [distSq, if_neg (by rintro ⟨-, h2⟩; exact hy h2), if_pos (Or.inl hx), DistSq.val]
    rw [sumSqR_zero _ hxz, dotR_zero_left _ _ hxz, sumSqR_normalizeRow_one y hy]
    norm_num
  · have hyz := toRealVec_zero y ((sumSq_eq_zero_iff y).mp hy)
    rw [normalizeRow_of_zero y hy]
    rw [distSq, if_neg (by rintro ⟨h1, -⟩; exact hx h1), if_pos (Or.inr hy), DistSq.val]
    rw [sumSqR_zero _ hyz, dotR_zero_right _ _ hyz, sumSqR_normalizeRow_one x hx]
    norm_num
  · have hSx : (0 : ℝ) < (sumSq x : ℝ) := by exact_mod_cast Nat.pos_of_ne_zero hx
    have hSy : (0 : ℝ) < (sumSq y : ℝ) := by exact_mod_cast Nat.pos_of_ne_zero hy
    have hd : dotR (normalizeRow x) (normalizeRow y) =
        (dot x y : ℝ) / Real.sqrt ((sumSq x : ℝ) * (sumSq y : ℝ)) := by
      rw [normalizeRow_nonzero_eq x hx, normalizeRow_nonzero_eq y hy, dotR_map_div,
        dotR_toRealVec, Real.sqrt_mul hSx.le]
    rw [hd, sumSqR_normalizeRow_one x hx, sumSqR_normalizeRow_one y hy]
    by_cases hdot : dot x y = 0
    · rw [distSq, if_neg (by rintro ⟨h1, -⟩; exact hx h1),
        if_neg (fun hor => hor.elim hx hy),
        if_pos hdot, DistSq.val, hdot]
      norm_num
    · rw [distSq, if_neg (by rintro ⟨h1, -⟩; exact hx h1),
        if_neg (fun hor => hor.elim hx hy),
        if_neg hdot, DistSq.val]
      have hcast : ((sumSq x * sumSq y : ℕ) : ℝ) = (sumSq x : ℝ) * (sumSq y : ℝ) := by
        push_cast
        ring
      rw [hcast]
      ring

end CustomerSupport

namespace CustomerSupport

theorem div_sqrt_le_iff {a c n : ℝ} (ha : 0 < a) (hn : 0 < n) :
    a / Real.sqrt n ≤ c ↔ 0 ≤ c ∧ a ^ 2 ≤ c ^ 2 * n := by
  have hs : 0 < Real.sqrt n := Real.sqrt_pos.mpr hn
  rw [div_le_iff₀ hs]
  constructor
  · intro h
    have hc : 0 ≤ c := by nlinarith
    refine ⟨hc, ?_⟩
    have h2 : a ^ 2 ≤ (c * Real.sqrt n) ^ 2 := pow_le_pow_left₀ ha.le h 2
    calc a ^ 2 ≤ (c * Real.sqrt n) ^ 2 := h2
    _ = c ^ 2 * n := by rw [mul_pow, Real.sq_sqrt hn.le]
  · rintro ⟨hc, h2⟩
    nlinarith [Real.sq_sqrt hn.le, mul_nonneg hc hs.le]

theorem le_div_sqrt_iff {a c n : ℝ} (ha : 0 < a) (hn : 0 < n) :
    c ≤ a / Real.sqrt n ↔ c ≤ 0 ∨ c ^ 2 * n ≤ a ^ 2 := by
  have hs : 0 < Real.sqrt n := Real.sqrt_pos.mpr hn
  constructor
  · intro h
    by_cases hc : c ≤ 0
    · exact Or.inl hc
    · push_neg at hc
      right
      rw [le_div_iff₀ hs] at h
      have h2 : (c * Real.sqrt n) ^ 2 ≤ a ^ 2 := pow_le_pow_left₀ (by positivity) h 2
      calc c ^ 2 * n = (c * Real.sqrt n) ^ 2 := by rw [mul_pow, Real.sq_sqrt hn.le]
      _ ≤ a ^ 2 := h2
  · intro h
    rcases h with hc | h2
    · have hpos : 0 < a / Real.sqrt n := by positivity
      linarith
    · rw [le_div_iff₀ hs]
      by_cases hc : c ≤ 0
      · nlinarith [mul_nonpos_of_nonpos_of_nonneg hc hs.le]
      · push_neg at hc
        nlinarith [Real.sq_sqrt hn.le, mul_pos hc hs]

theorem div_sqrt_le_div_sqrt_iff {a b n m : ℝ} (ha : 0 < a) (hb : 0 < b)
    (hn : 0 < n) (hm : 0 < m) :
    b / Real.sqrt m ≤ a / Real.sqrt n ↔ b ^ 2 * n ≤ a ^ 2 * m := by
  have hsn := Real.sqrt_pos.mpr hn
  have hsm := Real.sqrt_pos.mpr hm
  rw [div_le_div_iff₀ hsm hsn]
  constructor
  · intro h
    have h2 : (b * Real.sqrt n) ^ 2 ≤ (a * Real.sqrt m) ^ 2 :=
      pow_le_pow_left₀ (by positivity) h 2
    calc b ^ 2 * n = (b * Real.sqrt n) ^ 2 := by rw [mul_pow, Real.sq_sqrt hn.le]
    _ ≤ (a * Real.sqrt m) ^ 2 := h2
    _ = a ^ 2 * m := by rw [mul_pow, Real.sq_sqrt hm.le]
  · intro h
    nlinarith [Real.sq_sqrt hn.le, Real.sq_sqrt hm.le, mul_pos hb hsn, mul_pos ha hsm]

theorem irr_le_rat_iff (p : ℚ) (a n : ℕ) :
    dleB (.irr a n) (.rat p) = true ↔
      2 - p ≤ 0 ∨ (2 - p) ^ 2 * (n : ℚ) ≤ 4 * (a : ℚ) ^ 2 := by
  by_cases hc : (2 * (p.den : ℤ) - p.num) ≤ 0
  · have h2p : 2 - p ≤ 0 := by
      have hle : ((2 * (p.den : ℤ) - p.num : ℤ) : ℚ) ≤ 0 := by exact_mod_cast hc
      rw [two_sub_scaled] at hle
      nlinarith [den_posQ p]
    simp only [dleB, if_pos hc]
    exact iff_of_true trivial (Or.inl h2p)
  · push_neg at hc
    have h2p : 0 < 2 - p := by
      have hlt : (0 : ℚ) < ((2 * (p.den : ℤ) - p.num : ℤ) : ℚ) := by exact_mod_cast hc
      rw [two_sub_scaled] at hlt
      nlinarith [den_posQ p]
    simp only [dleB, if_neg (not_le.mpr hc), decide_eq_true_eq]
    constructor
    · intro h
      right
      have hQ : ((2 * (p.den : ℤ) - p.num : ℤ) : ℚ) ^ 2 * (n : ℚ) ≤
          4 * (a : ℚ) ^ 2 * (p.den : ℚ) ^ 2 := by
        exact_mod_cast h
      rw [two_sub_scaled, mul_pow] at hQ
      have hd2 : (0 : ℚ) < (p.den : ℚ) ^ 2 := by positivity
      nlinarith [hQ]
    · intro h
      rcases h with h0 | h4
      · exact absurd h0 (by linarith)
      · have hd2 : (0 : ℚ) < (p.den : ℚ) ^ 2 := by positivity
        have hQ : ((2 * (p.den : ℤ) - p.num : ℤ) : ℚ) ^ 2 * (n : ℚ) ≤
            4 * (a : ℚ) ^ 2 * (p.den : ℚ) ^ 2 := by
          rw [two_sub_scaled, mul_pow]
          nlinarith [h4]
        exact_mod_cast hQ

theorem distSq_WF (x y : List ℕ) : (distSq x y).WF := by
  rw [distSq]
  split
  · exact trivial
  · split
    · exact trivial
    · split
      · exact trivial
      · rename_i h1 h2 h3
        refine ⟨Nat.pos_of_ne_zero h3, ?_⟩
        have hx : sumSq x ≠ 0 := fun hz => h2 (Or.inl hz)
        have hy : sumSq y ≠ 0 := fun hz => h2 (Or.inr hz)
        exact Nat.pos_of_ne_zero (Nat.mul_ne_zero hx hy)

/-- Soundness of the exact comparator: on well-formed symbolic distances
it decides exactly the order of the denoted real numbers — so the model's
sorting and thresholding agree with what float comparisons on the true
distances would decide (floats modelled exactly). -/
theorem dleB_correct (d₁ d₂ : DistSq) (h₁ : d₁.WF) (h₂ : d₂.WF) :
    dleB d₁ d₂ = true ↔ d₁.val ≤ d₂.val := by
  cases d₁ with
  | rat p =>
    cases d₂ with
    | rat q =>
      rw [DistSq.val, DistSq.val]
      simp [dleB, Rat.cast_le]
    | irr a n =>
      obtain ⟨ha, hn⟩ := h₂
      have hn' : (0 : ℝ) < (n : ℝ) := by exact_mod_cast hn
      have ha' : (0 : ℝ) < 2 * (a : ℝ) := by
        have : (0 : ℝ) < (a : ℝ) := by exact_mod_cast ha
        linarith
      rw [rat_le_irr_iff, DistSq.val, DistSq.val]
      have hstep : ((p : ℝ) ≤ 2 - 2 * (a : ℝ) / Real.sqrt (n : ℝ)) ↔
          (2 * (a : ℝ)) / Real.sqrt (n : ℝ) ≤ 2 - (p : ℝ) := by
        rw [mul_div_assoc]
        constructor <;> intro h <;> linarith
      rw [hstep, div_sqrt_le_iff ha' hn']
      constructor
      · rintro ⟨h1, h2⟩
        constructor
        · exact_mod_cast h1
        · have h2' : (4 : ℝ) * (a : ℝ) ^ 2 ≤ ((2 : ℝ) - (p : ℝ)) ^ 2 * (n : ℝ) := by
            exact_mod_cast h2
          nlinarith [h2']
      · rintro ⟨h1, h2⟩
        constructor
        · exact_mod_cast h1
        · have h2' : (4 : ℝ) * (a : ℝ) ^ 2 ≤ ((2 : ℝ) - (p : ℝ)) ^ 2 * (n : ℝ) := by
            nlinarith [h2]
          exact_mod_cast h2'
  | irr a n =>
    obtain ⟨ha, hn⟩ := h₁
    have hn' : (0 : ℝ) < (n : ℝ) := by exact_mod_cast hn
    have ha' : (0 : ℝ) < 2 * (a : ℝ) := by
      have : (0 : ℝ) < (a : ℝ) := by exact_mod_cast ha
      linarith
    cases d₂ with
    | rat p =>
      rw [irr_le_rat_iff, DistSq.val, DistSq.val]
      have hstep : ((2 : ℝ) - 2 * (a : ℝ) / Real.sqrt (n : ℝ) ≤ (p : ℝ)) ↔
          (2 - (p : ℝ) ≤ (2 * (a : ℝ)) / Real.sqrt (n : ℝ)) := by
        rw [mul_div_assoc]
        constructor <;> intro h <;> linarith
      rw [hstep, le_div_sqrt_iff ha' hn']
      constructor
      · rintro (h1 | h2)
        · exact Or.inl (by exact_mod_cast h1)
        · right
          have h2' : ((2 : ℝ) - (p : ℝ)) ^ 2 * (n : ℝ) ≤ 4 * (a : ℝ) ^ 2 := by
            exact_mod_cast h2
          nlinarith [h2']
      · rintro (h1 | h2)
        · exact Or.inl (by exact_mod_cast h1)
        · right
          have h2' : ((2 : ℝ) - (p : ℝ)) ^ 2 * (n : ℝ) ≤ 4 * (a : ℝ) ^ 2 := by
            nlinarith [h2]
          exact_mod_cast h2'
    | irr b m =>
      obtain ⟨hb, hm⟩ := h₂
      have hm' : (0 : ℝ) < (m : ℝ) := by exact_mod_cast hm
      have hb' : (0 : ℝ) < 2 * (b : ℝ) := by
        have : (0 : ℝ) < (b : ℝ) := by exact_mod_cast hb
        linarith
      rw [DistSq.val, DistSq.val]
      have hstep : ((2 : ℝ) - 2 * (a : ℝ) / Real.sqrt (n : ℝ) ≤
          (2 : ℝ) - 2 * (b : ℝ) / Real.sqrt (m : ℝ)) ↔
          ((2 * (b : ℝ)) / Real.sqrt (m : ℝ) ≤ (2 * (a : ℝ)) / Real.sqrt (n : ℝ)) := by
        rw [mul_div_assoc, mul_div_assoc]
        constructor <;> intro h <;> linarith
      rw [hstep, div_sqrt_le_div_sqrt_iff ha' hb' hn' hm']
      rw [dleB]
      rw [decide_eq_true_eq]
      constructor
      · intro h
        have h' : ((b : ℝ)) ^ 2 * (n : ℝ) ≤ ((a : ℝ)) ^ 2 * (m : ℝ) := by
          exact_mod_cast h
        nlinarith [h']
      · intro h
        have h' : ((b : ℝ)) ^ 2 * (n : ℝ) ≤ ((a : ℝ)) ^ 2 * (m : ℝ) := by
          nlinarith [h]
        exact_mod_cast h'

end CustomerSupport


namespace CustomerSupport

theorem retrieved_faqs_eq (st : StoreState) (q : String) (cat : Option String)
    (k : ℕ) (T : ℚ) (exc : Option String) :
    (retrieveRelevantFaqs st q cat k T exc).retrieved_faqs =
      ((applyCategoryFilter cat (vsSearch st q k exc)).filter
        (fun r => dleB (DistSq.rat T) r.score)).map (fun r =>
          { question := r.faq.question
            answer := r.faq.answer
            category := r.faq.category
            similarity_score := r.score
            rank := r.rank }) := rfl

/-- C1 (amended): no conversion of distances to similarities takes place:
every entry returned as relevant carries, as its `similarity_score`, the
raw squared L2 distance of some search candidate, kept exactly when that
raw score is `>= SIMILARITY_THRESHOLD` under the exact comparator — so the
carried score is at least `T` as a raw distance, not a `1/(1+d)`
similarity in `(0, 1]`. -/
theorem C1_raw_score_threshold (st : StoreState) (q : String) (cat : Option String)
    (k : ℕ) (T : ℚ) (exc : Option String) :
    ∀ e ∈ (retrieveRelevantFaqs st q cat k T exc).retrieved_faqs,
      dleB (DistSq.rat T) e.similarity_score = true ∧
      ∃ r ∈ vsSearch st q k exc, r.score = e.similarity_score ∧ r.rank = e.rank ∧
        r.faq.question = e.question ∧ r.faq.answer = e.answer ∧
        r.faq.category = e.category := by
  intro e he
  rw [retrieved_faqs_eq] at he
  obtain ⟨r, hr, rfl⟩ := List.mem_map.mp he
  have hf := List.mem_filter.mp hr
  exact ⟨hf.2, r, mem_applyCategoryFilter hf.1, rfl, rfl, rfl, rfl, rfl⟩

/-- Witness for C1: the concrete entry returned for `queryAlpha` against
`stAB` satisfies the amended property. -/
theorem C1_raw_score_threshold_witness :
    dleB (DistSq.rat SIMILARITY_THRESHOLD)
        (RetrievedFAQ.similarity_score
          { question := "gamma", answer := "delta", category := "cat2",
            similarity_score := DistSq.rat 2, rank := 2 }) = true ∧
      ∃ r ∈ vsSearch stAB queryAlpha 2 none,
        r.score = RetrievedFAQ.similarity_score
            { question := "gamma", answer := "delta", category := "cat2",
              similarity_score := DistSq.rat 2, rank := 2 } ∧
        r.rank = 2 ∧ r.faq.question = "gamma" ∧ r.faq.answer = "delta" ∧
        r.faq.category = "cat2" :=
  C1_raw_score_threshold stAB queryAlpha none 2 SIMILARITY_THRESHOLD none
    { question := "gamma", answer := "delta", category := "cat2",
      similarity_score := DistSq.rat 2, rank := 2 } (by decide)

/-- C1 counterexample: with the disjoint two-record corpus and query
`"alpha"`, the single entry returned as relevant carries raw score `2`
(the squared distance to the unrelated record), which is not in `(0, 1]`,
and whose `1/(1+distance)` similarity `1/3` is below the threshold `0.7`
— so under the claimed rule this entry had to be dropped, yet the code
returns it (while dropping the genuinely similar record at distance
`2 - √2 ≈ 0.59`). -/
theorem C1_similarity_conversion_counterexample :
    (retrieveRelevantFaqs stAB queryAlpha none 2 SIMILARITY_THRESHOLD none).retrieved_faqs =
      [{ question := "gamma", answer := "delta", category := "cat2",
         similarity_score := DistSq.rat 2, rank := 2 }] ∧
    (DistSq.rat 2).val = 2 ∧
    (1 : ℝ) / (1 + (DistSq.rat 2).val) < (SIMILARITY_THRESHOLD : ℝ) ∧
    ¬ (DistSq.rat 2).val ≤ 1 := by
  have hv : (DistSq.rat 2).val = 2 := by
    rw [DistSq.val]
    norm_num
  have hT : (SIMILARITY_THRESHOLD : ℝ) = 7 / 10 := by
    rw [SIMILARITY_THRESHOLD, Rat.mkRat_eq_div]
    push_cast
    norm_num
  refine ⟨by decide, hv, ?_, ?_⟩
  · rw [hv, hT]
    norm_num
  · rw [hv]
    norm_num

/-- C2: for a truthy category other than `'general_inquiry'`, candidates
with a different record category are dropped; if that filter empties the
candidate set, it is discarded and the candidate set falls back to the
unfiltered top-k instead of becoming empty. -/
theorem C2_category_filter_fallback (c : String) (results : List SearchResult)
    (hne : c ≠ "") (hng : c ≠ "general_inquiry") :
    (results.filter (fun r => decide (r.faq.category = c)) ≠ [] →
      applyCategoryFilter (some c) results =
        results.filter (fun r => decide (r.faq.category = c))) ∧
    (results.filter (fun r => decide (r.faq.category = c)) = [] → results ≠ [] →
      applyCategoryFilter (some c) results = results) := by
  constructor
  · intro hnonempty
    rw [applyCategoryFilter, if_pos ⟨hne, hng⟩]
    dsimp only
    rw [if_neg]
    simpa [List.isEmpty_iff] using hnonempty
  · intro hempty hres
    rw [applyCategoryFilter, if_pos ⟨hne, hng⟩]
    dsimp only
    rw [if_pos]
    rw [hempty]
    rfl

/-- Witness for C2: filtering the concrete candidate set by a category
matching no record falls back to the unfiltered candidates. -/
theorem C2_category_filter_fallback_witness :
    applyCategoryFilter (some catNope) (vsSearch stAB queryAlpha 2 none) =
      vsSearch stAB queryAlpha 2 none :=
  (C2_category_filter_fallback catNope (vsSearch stAB queryAlpha 2 none)
    (by decide) (by decide)).2 (by decide) (by decide)

/-- C3 (amended): an exception during query encoding or index search is
caught by the `except` handler inside `VectorStore.search` (not at the
retrieval-agent boundary), which returns an empty candidate list; the
retrieval result is therefore empty with zero counts, but its error
descriptor is `None` — and no exception propagates, the function being
total. -/
theorem C3_search_error_swallowed (st : StoreState) (q : String)
    (cat : Option String) (k : ℕ) (T : ℚ) (msg : String) :
    retrieveRelevantFaqs st q cat k T (some msg) =
      { query := q, category_filter := cat, retrieved_faqs := [],
        total_results := 0, relevant_results := 0, error := none } := by
  rw [retrieveRelevantFaqs]
  have h1 : vsSearch st q k (some msg) = [] := rfl
  rw [h1, applyCategoryFilter_nil]
  rfl

/-- C3 counterexample: on a concrete failing search the retrieval result
reports `error = none`, not a non-null error descriptor as claimed. -/
theorem C3_error_descriptor_counterexample :
    (retrieveRelevantFaqs stAB queryAlpha none 3 SIMILARITY_THRESHOLD
        (some boomMsg)).retrieved_faqs = [] ∧
    (retrieveRelevantFaqs stAB queryAlpha none 3 SIMILARITY_THRESHOLD
        (some boomMsg)).total_results = 0 ∧
    (retrieveRelevantFaqs stAB queryAlpha none 3 SIMILARITY_THRESHOLD
        (some boomMsg)).relevant_results = 0 ∧
    (retrieveRelevantFaqs stAB queryAlpha none 3 SIMILARITY_THRESHOLD
        (some boomMsg)).error = none :=
  ⟨by decide, by decide, by decide, by decide⟩

/-- C6: for a fixed store, query, `k` and category, the count of relevant
results is antitone in the relevance threshold: raising the threshold can
only shrink the relevant set. -/
theorem C6_threshold_antitone (st : StoreState) (q : String) (cat : Option String)
    (k : ℕ) (exc : Option String) {T1 T2 : ℚ} (h : T1 ≤ T2) :
    (retrieveRelevantFaqs st q cat k T2 exc).relevant_results ≤
      (retrieveRelevantFaqs st q cat k T1 exc).relevant_results := by
  rw [relevant_results_eq, relevant_results_eq]
  exact length_filter_mono _ _ _ (fun x hx => dleB_rat_mono h x.score hx)

/-- Witness for C6 at thresholds `1/2 ≤ 1` on the concrete store. -/
theorem C6_threshold_antitone_witness :
    mkRat 1 2 ≤ 1 ∧
    (retrieveRelevantFaqs stAB queryAlpha none 2 1 none).relevant_results ≤
      (retrieveRelevantFaqs stAB queryAlpha none 2 (mkRat 1 2) none).relevant_results :=
  ⟨by decide, C6_threshold_antitone stAB queryAlpha none 2 none (by decide)⟩

end CustomerSupport

namespace CustomerSupport

theorem foldl_id_of_step_id {α β : Type} (f : β → α → β) (l : List α) (v : β)
    (h : ∀ x ∈ l, ∀ w, f w x = w) : l.foldl f v = v := by
  induction l generalizing v with
  | nil => rfl
  | cons x l ih =>
    rw [List.foldl_cons, h x (List.mem_cons_self x l) v]
    exact ih v (fun y hy w => h y (List.mem_cons_of_mem x hy) w)

theorem rawEmbed_oov (vocab : List String) (q : String)
    (h : oovQuery vocab q = true) :
    rawEmbed vocab q = List.replicate (embDim vocab) 0 := by
  rw [rawEmbed]
  apply foldl_id_of_step_id
  intro w hw v
  have hw2 := List.all_eq_true.mp h w hw
  rw [embedStep]
  cases hidx : wordToIdx vocab w with
  | none => rfl
  | some i =>
    simp only [hidx] at hw2
    show (if i < VECTOR_DIMENSION then bump v i else v) = v
    rw [if_neg (not_lt.mpr (of_decide_eq_true hw2))]

theorem sumSq_replicate_zero (n : ℕ) : sumSq (List.replicate n 0) = 0 := by
  rw [sumSq_eq_zero_iff]
  intro c hc
  exact List.eq_of_mem_replicate hc

/-- C5: a query all of whose tokens are out-of-vocabulary (or map only to
indices at or above the dimension cap) encodes to the exact zero vector,
with no error, and its squared L2 distance to every non-zero
(unit-normalized) corpus row of the same width is exactly 1 — both as the
symbolic score the search model carries and as the true real squared
distance between the stored rows. -/
theorem C5_oov_query_distance_one (vocab : List String) (q : String) (e : List ℕ)
    (hoov : oovQuery vocab q = true) (he : sumSq e ≠ 0)
    (hlen : (rawEmbed vocab q).length = e.length) :
    rawEmbed vocab q = List.replicate (embDim vocab) 0 ∧
    distSq (rawEmbed vocab q) e = DistSq.rat 1 ∧
    sqDistR (normalizeRow (rawEmbed vocab q)) (normalizeRow e) = 1 := by
  have h0 := rawEmbed_oov vocab q hoov
  have hz : sumSq (rawEmbed vocab q) = 0 := by
    rw [h0]
    exact sumSq_replicate_zero _
  have hd : distSq (rawEmbed vocab q) e = DistSq.rat 1 := by
    rw [distSq, if_neg, if_pos (Or.inl hz)]
    rintro ⟨-, h2⟩
    exact he h2
  refine ⟨h0, hd, ?_⟩
  rw [distSq_val _ _ hlen, hd, DistSq.val]
  norm_num

/-- Witness for C5 on the concrete store `stAB` and the query
`"zzz qqq"`. -/
theorem C5_oov_query_distance_one_witness :
    oovQuery stAB.vocab queryZZZ = true ∧ sumSq (stAB.embeddings.getD 0 []) ≠ 0 ∧
    (rawEmbed stAB.vocab queryZZZ = List.replicate (embDim stAB.vocab) 0 ∧
     distSq (rawEmbed stAB.vocab queryZZZ) (stAB.embeddings.getD 0 []) = DistSq.rat 1 ∧
     sqDistR (normalizeRow (rawEmbed stAB.vocab queryZZZ))
       (normalizeRow (stAB.embeddings.getD 0 [])) = 1) :=
  ⟨by decide, by decide,
    C5_oov_query_distance_one stAB.vocab queryZZZ (stAB.embeddings.getD 0 [])
      (by decide) (by decide) (by decide)⟩

/-- C7: every embedding row is either left as the exact zero vector (when
its raw term-frequency vector has zero norm, which forces every
coordinate to be zero) or equals the raw vector divided by its Euclidean
norm, in which case its Euclidean norm is exactly 1 — in particular
within `1e-6` of `1.0`. -/
theorem C7_normalization (v : List ℕ) :
    (normalizeRow v = toRealVec v ∧ sumSq v = 0 ∧ ∀ c ∈ v, c = 0) ∨
    (normalizeRow v = (toRealVec v).map (fun x => x / euclNorm (toRealVec v)) ∧
     euclNorm (normalizeRow v) = 1 ∧
     |euclNorm (normalizeRow v) - 1| ≤ (1 : ℝ) / 1000000) := by
  by_cases h : sumSq v = 0
  · exact Or.inl ⟨normalizeRow_of_zero v h, h, (sumSq_eq_zero_iff v).mp h⟩
  · right
    have h1 := euclNorm_normalizeRow v h
    refine ⟨?_, h1, by rw [h1]; norm_num⟩
    have hS : (0 : ℝ) < (sumSq v : ℝ) := by exact_mod_cast Nat.pos_of_ne_zero h
    have hs : 0 < euclNorm (toRealVec v) := by
      rw [euclNorm, sumSqR_toRealVec]
      exact Real.sqrt_pos.mpr hS
    rw [normalizeRow, normalizeV, if_pos hs]

/-- C9: after a build from a non-empty corpus, the embedding matrix has
exactly one row per corpus record, row `i` encodes record `i`'s combined
question+answer text, and the index entry count equals the embedding
matrix length. -/
theorem C9_build_invariant (corpus : List FAQ) (_h : corpus ≠ []) :
    (createEmbeddings corpus).length = corpus.length ∧
    createEmbeddings corpus = corpus.map (fun f =>
      rawEmbed (buildVocab (corpus.map combinedText)) (combinedText f)) ∧
    (∀ i : ℕ, (createEmbeddings corpus)[i]? = (corpus[i]?).map (fun f =>
      rawEmbed (buildVocab (corpus.map combinedText)) (combinedText f))) ∧
    (buildIndex (createEmbeddings corpus)).ntotal = (createEmbeddings corpus).length := by
  have hmap : createEmbeddings corpus = corpus.map (fun f =>
      rawEmbed (buildVocab (corpus.map combinedText)) (combinedText f)) := by
    rw [createEmbeddings, List.map_map]
    rfl
  refine ⟨?_, hmap, ?_, rfl⟩
  · rw [hmap, List.length_map]
  · intro i
    rw [hmap, List.getElem?_map]

/-- Witness for C9 on the one-record corpus `[recA]`. -/
theorem C9_build_invariant_witness :
    ([recA] : List FAQ) ≠ [] ∧ (createEmbeddings [recA]).length = [recA].length :=
  ⟨by decide, (C9_build_invariant [recA] (by decide)).1⟩

/-- C4 (amended): on the spec's two-record corpus with the query
`"I want a refund for my order"` and `k = 1`, search does return the
refund record at rank 1, but only through the stable tie-break on row
order: both records lie at exactly the same squared distance
`2 - 4/√33` from the query (the query token `refund` does not match the
stored token `refund?` under whitespace-only tokenization, so each
record shares exactly the two tokens with the query). -/
theorem C4_refund_scenario_tie :
    vsSearchOk st4 query4 1 = [{ rank := 1, score := DistSq.irr 2 33, faq := rec0 }] ∧
    distSq (rawEmbed st4.vocab query4) (st4.embeddings.getD 0 []) = DistSq.irr 2 33 ∧
    distSq (rawEmbed st4.vocab query4) (st4.embeddings.getD 1 []) = DistSq.irr 2 33 :=
  ⟨by decide, by decide, by decide⟩

/-- C4 counterexample: the refund record's similarity is not strictly
greater than the password record's — the two squared distances to the
query are equal (both `DistSq.irr 2 33`), hence so is every similarity
derived from them. -/
theorem C4_strict_similarity_counterexample :
    distSq (rawEmbed st4.vocab query4) (st4.embeddings.getD 0 []) =
      distSq (rawEmbed st4.vocab query4) (st4.embeddings.getD 1 []) ∧
    (distSq (rawEmbed st4.vocab query4) (st4.embeddings.getD 0 [])).val =
      (distSq (rawEmbed st4.vocab query4) (st4.embeddings.getD 1 [])).val := by
  have h : distSq (rawEmbed st4.vocab query4) (st4.embeddings.getD 0 []) =
      distSq (rawEmbed st4.vocab query4) (st4.embeddings.getD 1 []) := by decide
  exact ⟨h, by rw [h]⟩

end CustomerSupport

namespace CustomerSupport

theorem filterMap_all_some {α β : Type} (f : α → Option β) (l : List α)
    (h : ∀ x ∈ l, (f x).isSome = true) :
    (l.filterMap f).length = l.length ∧
    ∀ j : ℕ, (l.filterMap f)[j]? = (l[j]?).bind f := by
  induction l with
  | nil =>
    refine ⟨rfl, fun j => ?_⟩
    simp
  | cons x l ih =>
    obtain ⟨y, hy⟩ := Option.isSome_iff_exists.mp (h x (List.mem_cons_self x l))
    have htail := ih (fun z hz => h z (List.mem_cons_of_mem x hz))
    have hcons : (x :: l).filterMap f = y :: l.filterMap f := by
      rw [List.filterMap_cons, hy]
    constructor
    · rw [hcons, List.length_cons, List.length_cons, htail.1]
    · intro j
      cases j with
      | zero =>
        rw [hcons]
        simp [hy]
      | succ n =>
        rw [hcons]
        simp only [List.getElem?_cons_succ]
        exact htail.2 n

theorem pyGet_natCast {α : Type} (l : List α) (j : ℕ) : pyGet l (j : ℤ) = l[j]? := by
  rw [pyGet]
  have h1 : ¬ ((j : ℤ) < 0) := by omega
  have h2 : (0 : ℤ) ≤ (j : ℤ) := by omega
  simp only [if_neg h1, if_pos h2, Int.toNat_natCast]

theorem pyGet_neg_one {α : Type} (l : List α) (h : l ≠ []) :
    pyGet l (-1) = some (l.getLast h) := by
  have hlen : 1 ≤ l.length := List.length_pos.mpr h
  rw [pyGet]
  have h1 : ((-1 : ℤ) < 0) := by omega
  have h2 : (0 : ℤ) ≤ (l.length : ℤ) + (-1) := by omega
  simp only [if_pos h1, if_pos h2]
  have h3 : ((l.length : ℤ) + (-1)).toNat = l.length - 1 := by omega
  rw [h3, ← List.getLast?_eq_getElem?, List.getLast?_eq_getLast_of_ne_nil h]

theorem indexSearch_overflow (embs : List (List ℕ)) (q : List ℕ) (k : ℕ)
    (hk : embs.length ≤ k) :
    ∃ sorted : List (DistSq × ℤ),
      indexSearch embs q k =
        sorted ++ List.replicate (k - embs.length) (DistSq.rat FLT_MAX, (-1 : ℤ)) ∧
      sorted.length = embs.length ∧
      ∀ pr ∈ sorted, ∃ j : ℕ, j < embs.length ∧ pr.2 = (j : ℤ) := by
  refine ⟨List.insertionSort (fun x y => dleB x.1 y.1 = true)
    (embs.enum.map (fun p => (distSq q p.2, (p.1 : ℤ)))), ?_, ?_, ?_⟩
  · rw [indexSearch]
    have hslen : (List.insertionSort (fun x y => dleB x.1 y.1 = true)
        (embs.enum.map (fun p => (distSq q p.2, (p.1 : ℤ))))).length = embs.length := by
      rw [(List.perm_insertionSort _ _).length_eq, List.length_map, List.enum_length]
    rw [List.take_of_length_le (by omega)]
    rw [hslen]
  · rw [(List.perm_insertionSort _ _).length_eq, List.length_map, List.enum_length]
  · intro pr hpr
    have hmem : pr ∈ embs.enum.map (fun p => (distSq q p.2, (p.1 : ℤ))) :=
      (List.perm_insertionSort _ _).mem_iff.mp hpr
    obtain ⟨p, hp, rfl⟩ := List.mem_map.mp hmem
    have hlt : p.1 < embs.length := by
      have := List.mem_enum_iff_getElem?.mp hp
      rw [List.getElem?_eq_some] at this
      exact this.1
    exact ⟨p.1, hlt, rfl⟩

/-- C10: searching a non-empty indexed corpus with `k` larger than the
corpus size pads the missing neighbor slots with sentinel row `-1`; the
`idx < len(faq_data)` guard does not exclude `-1`, and Python's negative
indexing resolves `faq_data[-1]` to the last record, so every padding
slot still yields a returned entry referencing the last corpus record —
no entry is dropped and no out-of-bounds access occurs. -/
theorem C10_k_overflow_padding (corpus : List FAQ) (q : String) (k : ℕ)
    (hne : corpus ≠ []) (hk : corpus.length < k) :
    (vsSearchOk (buildStore corpus) q k).length = k ∧
    ∀ j : ℕ, corpus.length ≤ j → j < k →
      (vsSearchOk (buildStore corpus) q k)[j]? =
        some { rank := j + 1, score := DistSq.rat FLT_MAX,
               faq := corpus.getLast hne } := by
  have hnpos : 0 < corpus.length := List.length_pos.mpr hne
  have hlen_emb : (buildStore corpus).embeddings.length = corpus.length := by
    rw [buildStore]
    rw [createEmbeddings]
    rw [List.length_map, List.length_map]
  obtain ⟨sorted, hidx, hslen, hmem⟩ :=
    indexSearch_overflow (buildStore corpus).embeddings
      (rawEmbed (buildStore corpus).vocab q) k (by omega)
  have hfaq : (buildStore corpus).faq_data = corpus := rfl
  have hpairs_len :
      (indexSearch (buildStore corpus).embeddings
        (rawEmbed (buildStore corpus).vocab q) k).length = k := by
    rw [hidx, List.length_append, List.length_replicate, hslen, hlen_emb]
    omega
  have hunfold : vsSearchOk (buildStore corpus) q k =
      (indexSearch (buildStore corpus).embeddings
        (rawEmbed (buildStore corpus).vocab q) k).enum.filterMap (fun p =>
        if p.2.2 < ((buildStore corpus).faq_data.length : ℤ) then
          (pyGet (buildStore corpus).faq_data p.2.2).map
            (fun f => { rank := p.1 + 1, score := p.2.1, faq := f })
        else none) := rfl
  have hall : ∀ x ∈ (indexSearch (buildStore corpus).embeddings
      (rawEmbed (buildStore corpus).vocab q) k).enum,
      ((fun p : ℕ × (DistSq × ℤ) =>
        if p.2.2 < ((buildStore corpus).faq_data.length : ℤ) then
          (pyGet (buildStore corpus).faq_data p.2.2).map
            (fun f => ({ rank := p.1 + 1, score := p.2.1, faq := f } : SearchResult))
        else none) x).isSome = true := by
    intro x hx
    dsimp only
    have hx2 := List.mem_enum_iff_getElem?.mp hx
    -- x.2 is an element of the padded pair list
    have hxmem : x.2 ∈ indexSearch (buildStore corpus).embeddings
        (rawEmbed (buildStore corpus).vocab q) k := by
      rw [List.getElem?_eq_some] at hx2
      obtain ⟨hlt, hget⟩ := hx2
      rw [← hget]
      exact List.getElem_mem hlt
    rw [hidx] at hxmem
    rcases List.mem_append.mp hxmem with hin | hpad
    · obtain ⟨j, hj, hj2⟩ := hmem x.2 hin
      have hjc : j < corpus.length := by omega
      rw [hfaq, hj2]
      rw [if_pos (by exact_mod_cast hjc : (j : ℤ) < (corpus.length : ℤ))]
      rw [pyGet_natCast, List.getElem?_eq_getElem hjc]
      rfl
    · have hx3 : x.2 = (DistSq.rat FLT_MAX, (-1 : ℤ)) := List.eq_of_mem_replicate hpad
      rw [hfaq, hx3]
      rw [if_pos (by omega : (-1 : ℤ) < (corpus.length : ℤ))]
      rw [pyGet_neg_one corpus hne]
      rfl
  obtain ⟨hlen, hget⟩ := filterMap_all_some _ _ hall
  constructor
  · rw [hunfold, hlen, List.enum_length, hpairs_len]
  · intro j hj1 hj2
    rw [hunfold, hget j, List.getElem?_enum]
    have hpj : (indexSearch (buildStore corpus).embeddings
        (rawEmbed (buildStore corpus).vocab q) k)[j]? =
        some (DistSq.rat FLT_MAX, (-1 : ℤ)) := by
      rw [hidx, List.getElem?_append_right (by omega : sorted.length ≤ j)]
      rw [List.getElem?_replicate, if_pos (by omega : j - sorted.length < k - (buildStore corpus).embeddings.length)]
    rw [hpj]
    show (if ((-1 : ℤ)) < ((buildStore corpus).faq_data.length : ℤ) then
        (pyGet (buildStore corpus).faq_data (-1)).map
          (fun f => ({ rank := j + 1, score := DistSq.rat FLT_MAX, faq := f } : SearchResult))
      else none) =
      some { rank := j + 1, score := DistSq.rat FLT_MAX, faq := corpus.getLast hne }
    rw [hfaq]
    rw [if_pos (by omega : (-1 : ℤ) < (corpus.length : ℤ))]
    rw [pyGet_neg_one corpus hne]
    rfl

/-- Witness for C10 on the one-record corpus with `k = 2`. -/
theorem C10_k_overflow_padding_witness :
    (vsSearchOk (buildStore [recA]) queryAlpha 2).length = 2 ∧
    ∀ j : ℕ, ([recA] : List FAQ).length ≤ j → j < 2 →
      (vsSearchOk (buildStore [recA]) queryAlpha 2)[j]? =
        some { rank := j + 1, score := DistSq.rat FLT_MAX,
               faq := ([recA] : List FAQ).getLast (by decide) } :=
  C10_k_overflow_padding [recA] queryAlpha 2 (by decide) (by decide)

end CustomerSupport

namespace CustomerSupport

theorem charListLeB_total : ∀ x y : List Char,
    charListLeB x y = true ∨ charListLeB y x = true
  | [], _ => Or.inl rfl
  | _ :: _, [] => Or.inr rfl
  | a :: as, b :: bs => by
    rcases lt_trichotomy a b with h | h | h
    · left
      rw [charListLeB, if_pos h]
    · subst h
      rcases charListLeB_total as bs with ih | ih
      · left
        rw [charListLeB, if_neg (lt_irrefl a), if_neg (lt_irrefl a)]
        exact ih
      · right
        rw [charListLeB, if_neg (lt_irrefl a), if_neg (lt_irrefl a)]
        exact ih
    · right
      rw [charListLeB, if_pos h]

theorem charListLeB_trans : ∀ x y z : List Char, charListLeB x y = true →
    charListLeB y z = true → charListLeB x z = true
  | [], _, _ => fun _ _ => rfl
  | _ :: _, [], _ => fun h1 _ => (Bool.false_ne_true h1).elim
  | _ :: _, _ :: _, [] => fun _ h2 => (Bool.false_ne_true h2).elim
  | a :: as, b :: bs, c :: cs => fun h1 h2 => by
    rw [charListLeB] at h1 h2 ⊢
    by_cases hab : a < b
    · by_cases hbc : b < c
      · rw [if_pos (hab.trans hbc)]
      · by_cases hcb : c < b
        · rw [if_neg hbc, if_pos hcb] at h2
          exact (Bool.false_ne_true h2).elim
        · have heq : b = c := le_antisymm (not_lt.mp hcb) (not_lt.mp hbc)
          subst heq
          rw [if_pos hab]
    · by_cases hba : b < a
      · rw [if_neg hab, if_pos hba] at h1
        exact (Bool.false_ne_true h1).elim
      · have heq : a = b := le_antisymm (not_lt.mp hba) (not_lt.mp hab)
        subst heq
        rw [if_neg (lt_irrefl a), if_neg (lt_irrefl a)] at h1
        by_cases hac : a < c
        · rw [if_pos hac]
        · by_cases hca : c < a
          · rw [if_neg hac, if_pos hca] at h2
            exact (Bool.false_ne_true h2).elim
          · have heq2 : a = c := le_antisymm (not_lt.mp hca) (not_lt.mp hac)
            subst heq2
            rw [if_neg (lt_irrefl a), if_neg (lt_irrefl a)] at h2 ⊢
            exact charListLeB_trans as bs cs h1 h2

theorem charListLeB_antisymm : ∀ x y : List Char, charListLeB x y = true →
    charListLeB y x = true → x = y
  | [], [] => fun _ _ => rfl
  | [], _ :: _ => fun _ h2 => (Bool.false_ne_true h2).elim
  | _ :: _, [] => fun h1 _ => (Bool.false_ne_true h1).elim
  | a :: as, b :: bs => fun h1 h2 => by
    rw [charListLeB] at h1 h2
    by_cases hab : a < b
    · rw [if_neg (lt_asymm hab), if_pos hab] at h2
      exact (Bool.false_ne_true h2).elim
    · by_cases hba : b < a
      · rw [if_neg hab, if_pos hba] at h1
        exact (Bool.false_ne_true h1).elim
      · have heq : a = b := le_antisymm (not_lt.mp hba) (not_lt.mp hab)
        subst heq
        rw [if_neg (lt_irrefl a), if_neg (lt_irrefl a)] at h1 h2
        rw [charListLeB_antisymm as bs h1 h2]

instance : IsTotal String strLe :=
  ⟨fun a b => charListLeB_total a.data b.data⟩

instance : IsTrans String strLe :=
  ⟨fun _ _ _ h1 h2 => charListLeB_trans _ _ _ h1 h2⟩

instance : IsAntisymm String strLe :=
  ⟨fun a b h1 h2 => by
    cases a with
    | mk la =>
      cases b with
      | mk lb =>
        rw [charListLeB_antisymm la lb h1 h2]⟩

theorem wordToIdx_get : ∀ (l : List String), l.Nodup → ∀ (i : ℕ) (h : i < l.length),
    wordToIdx l (l.get ⟨i, h⟩) = some i
  | [], _, i, h => absurd h (by simp)
  | v :: vs, _, 0, _ => by
    show (if v = v then some 0 else _) = some 0
    rw [if_pos rfl]
  | v :: vs, hnd, i + 1, h => by
    have h' : i < vs.length := by
      rw [List.length_cons] at h
      omega
    have hget : (v :: vs).get ⟨i + 1, h⟩ = vs.get ⟨i, h'⟩ := rfl
    rw [hget, wordToIdx]
    have hv : v ≠ vs.get ⟨i, h'⟩ := by
      intro heq
      exact (List.nodup_cons.mp hnd).1 (heq ▸ List.get_mem vs i h')
    rw [if_neg hv, wordToIdx_get vs (List.nodup_cons.mp hnd).2 i h']
    rfl

/-- C8: vocabulary construction collects the distinct whitespace tokens of
all documents, sorts them lexicographically without duplicates, and
assigns index `i` to the `i`-th token in sorted order (`word_to_idx` maps
the `i`-th vocabulary word back to `i`); moreover any sorted
duplicate-free list with the same members equals the built vocabulary, so
rebuilding from an identical corpus reproduces the identical vocabulary
and token-to-index mapping. -/
theorem C8_vocab_sorted_deterministic (texts : List String) :
    List.Sorted strLe (buildVocab texts) ∧
    (buildVocab texts).Nodup ∧
    (∀ t, t ∈ buildVocab texts ↔ t ∈ (texts.map tokenize).flatten) ∧
    (∀ (i : ℕ) (h : i < (buildVocab texts).length),
      wordToIdx (buildVocab texts) ((buildVocab texts).get ⟨i, h⟩) = some i) ∧
    (∀ l, List.Sorted strLe l → l.Nodup →
      (∀ t, t ∈ l ↔ t ∈ (texts.map tokenize).flatten) → l = buildVocab texts) := by
  have hperm : List.Perm (buildVocab texts) ((texts.map tokenize).flatten.dedup) :=
    List.perm_insertionSort strLe _
  have hsorted : List.Sorted strLe (buildVocab texts) :=
    List.sorted_insertionSort strLe _
  have hnodup : (buildVocab texts).Nodup :=
    hperm.nodup_iff.mpr (List.nodup_dedup _)
  have hmem : ∀ t, t ∈ buildVocab texts ↔ t ∈ (texts.map tokenize).flatten :=
    fun t => hperm.mem_iff.trans List.mem_dedup
  refine ⟨hsorted, hnodup, hmem, fun i h => wordToIdx_get _ hnodup i h, ?_⟩
  intro l hls hln hlm
  apply List.eq_of_perm_of_sorted ?_ hls hsorted
  rw [List.perm_ext_iff_of_nodup hln hnodup]
  intro t
  rw [hlm t, hmem t]

/-- Witness for C8: the sorted duplicate-free token list of the fixture
corpus is exactly the built vocabulary. -/
theorem C8_vocab_sorted_deterministic_witness :
    ([ "a", "b" ] : List String) = buildVocab [textBA] :=
  (C8_vocab_sorted_deterministic [textBA]).2.2.2.2 [ "a", "b" ]
    (by decide) (by decide) (by
      intro t
      have h : (([textBA]).map tokenize).flatten = [ "b", "a" ] := by decide
      rw [h]
      simp only [List.mem_cons, List.not_mem_nil, or_false]
      tauto)

end CustomerSupport

namespace CustomerSupport

/-- Witness for C7 at the concrete raw row `[3, 4]`. -/
theorem C7_normalization_witness :
    (normalizeRow [3, 4] = toRealVec [3, 4] ∧ sumSq [3, 4] = 0 ∧
      ∀ c ∈ ([3, 4] : List ℕ), c = 0) ∨
    (normalizeRow [3, 4] = (toRealVec [3, 4]).map
        (fun x => x / euclNorm (toRealVec [3, 4])) ∧
     euclNorm (normalizeRow [3, 4]) = 1 ∧
     |euclNorm (normalizeRow [3, 4]) - 1| ≤ (1 : ℝ) / 1000000) :=
  C7_normalization [3, 4]

end CustomerSupport
